import Mathlib

/-!
# A broadcast hub over websockets: the Room actor and its Clients

A shallow embedding of `main.go`.

* A `*Client` pointer is a natural number (only pointer identity is ever used:
  the pointer is a map key and a channel payload).
* `map[*Client]bool` is the list of its keys, without repetition, in the order
  in which a `range` over the map produces them.  The stored value is always
  `true` and is never read.  The order is not fixed by Go; the statements below
  hold for every map, hence for every order, and speak of membership and counts.
* Channels that carry no data content of interest are reduced to what the code
  observes of them: the `stop` channel of a client is either open or closed;
  a rendezvous on `send` is recorded in `delivered`.
* A goroutine that loops over a `select` or a blocking read is a recursive
  function over the list of events that the environment lets it take, in the
  order it takes them.
* The channels of the Room are unbuffered: a send on one of them is done when
  `Room.run` receives the value, and blocks for ever once `Room.run` has returned.
* A panic is the `error` side of `Except`; `recover()` in a deferred function
  is the place where an `error` is turned back into `ok`.
-/

namespace Chat

/-- Identity of a `*Client`. -/
abbrev Client := Nat

/-- The value of a Go panic, as printed. -/
abbrev Panic := String

/-- Mirror of `type ClientRecv struct`. -/
structure ClientRecv where
  client : Client
  message : String
deriving DecidableEq, Repr

/-- Lines written through package `log`. -/
inductive LogLine
  | joined (c : Client)                 -- "Client: %v is joined"
  | err (e : String)                    -- log.Println(err)
  | recvFromClient (cr : ClientRecv)    -- "Room: RecvFromClient %#v"
  | recovered (p : Panic)               -- log.Println(r) in the deferred func of Stop
  | roomClosed                          -- "Room closed."
  | clientClosed (c : Client)           -- "Client %v is closed"
  | sender (e : String)                 -- log.Println("sender", err)
  | receiver (e : String)               -- log.Println("receiver", err)
deriving DecidableEq, Repr

/-- Mirror of `map[*Client]bool`: the keys, in iteration order, each once. -/
structure ClientMap where
  keys : List Client
  nodup : keys.Nodup

/-- Result of `make(map[*Client]bool)`. -/
def ClientMap.empty : ClientMap := ⟨[], List.nodup_nil⟩

/-- Assignment `m[c] = true`: a present key keeps its entry, an absent key is added. -/
def ClientMap.insert (m : ClientMap) (c : Client) : ClientMap :=
  if h : c ∈ m.keys then m
  else ⟨m.keys ++ [c], by
    refine List.Nodup.append m.nodup (List.nodup_singleton c) ?_
    intro a ha hb
    rw [List.mem_singleton] at hb
    exact h (hb ▸ ha)⟩

/-- Builtin `delete(m, c)`: removes the entry of `c`; nothing happens when `c` is absent. -/
def ClientMap.delete (m : ClientMap) (c : Client) : ClientMap :=
  ⟨m.keys.erase c, m.nodup.erase c⟩

/-- The part of the program state that `Room.run`, `Room.purge`, `Client.Send` and
`Client.Stop` read or write. -/
structure State where
  /-- Field `r.clients`. -/
  clients : ClientMap
  /-- For each client, whether its channel `c.stop` has been closed. -/
  stop : Client → Bool
  /-- For each client, the messages handed over on its channel `c.send`, oldest first. -/
  delivered : Client → List String
  /-- Every call of `Client.Send`, oldest first. -/
  sendCalls : List (Client × String)
  /-- Output of package `log`, oldest first. -/
  log : List LogLine

/-- State right after `newRoom()`: an empty map, and no client created yet. -/
def newRoom : State :=
  { clients := ClientMap.empty
    stop := fun _ => false
    delivered := fun _ => []
    sendCalls := []
    log := [] }

/-- Effect of `log.Println` and `log.Printf`. -/
def State.println (s : State) (l : LogLine) : State :=
  { s with log := s.log ++ [l] }

/-- Builtin `close(c.stop)` on the channel made in `handlerWsConn`: closing a closed
channel panics. -/
def closeStop (c : Client) (s : State) : Except Panic State :=
  if s.stop c then .error "close of closed channel"
  else .ok { s with stop := Function.update s.stop c true }

/-- Mirror of `func (c *Client) Stop()`: the body is `close(c.stop)`; the deferred
function recovers a panic of the body, logs its value, and `Stop` returns normally. -/
def Client.Stop (c : Client) (s : State) : Except Panic State :=
  match closeStop c s with
  | .ok s' => .ok s'
  | .error p => .ok (s.println (.recovered p))

/-- Mirror of `func (c *Client) Send(message string) error`.  The `select` has two
cases: the rendezvous `c.send <- message`, and the 10 ms timer.  Which one fires is
decided by the environment (whether the Writer of `c` takes the message in time),
given here as `accepts c`.  The result is `none` for `nil`. -/
def Client.Send (accepts : Client → Bool) (c : Client) (message : String) (s : State) :
    State × Option String :=
  let s1 := { s with sendCalls := s.sendCalls ++ [(c, message)] }
  if accepts c then
    ({ s1 with delivered := Function.update s1.delivered c (s1.delivered c ++ [message]) }, none)
  else
    (s1, some "Can't send to client")

/-- Statement `delete(r.clients, c)`. -/
def State.deleteClient (s : State) (c : Client) : State :=
  { s with clients := s.clients.delete c }

/-- Loop `for c := range r.clients { body }`, started on the keys present when the
loop begins.  A key deleted before it is reached is not produced (the Go rule for
deletion during iteration); no loop of the program adds a key. -/
def rangeClients (body : Client → State → Except Panic State) :
    List Client → State → Except Panic State
  | [], s => .ok s
  | c :: rest, s =>
    if c ∈ s.clients.keys then
      match body c s with
      | .ok s' => rangeClients body rest s'
      | .error p => .error p
    else rangeClients body rest s

/-- Body of the loop in the `RecvFromClient` case of `Room.run`. -/
def broadcastBody (accepts : Client → Bool) (message : String) (c : Client) (s : State) :
    Except Panic State :=
  match Client.Send accepts c message s with
  | (s1, none) => .ok s1
  | (s1, some e) =>
    match Client.Stop c (s1.println (.err e)) with
    | .ok s2 => .ok (s2.deleteClient c)
    | .error p => .error p

/-- The `RecvFromClient` case of `Room.run`: the loop, then the log line. -/
def Room.broadcast (cr : ClientRecv) (accepts : Client → Bool) (s : State) :
    Except Panic State :=
  match rangeClients (broadcastBody accepts cr.message) s.clients.keys s with
  | .ok s' => .ok (s'.println (.recvFromClient cr))
  | .error p => .error p

/-- Body of the loop in `Room.purge`. -/
def purgeBody (c : Client) (s : State) : Except Panic State :=
  match Client.Stop c s with
  | .ok s' => .ok (s'.deleteClient c)
  | .error p => .error p

/-- Mirror of `func (r *Room) purge()`. -/
def Room.purge (s : State) : Except Panic State :=
  rangeClients purgeBody s.clients.keys s

/-- What the `select` of `Room.run` can receive (`RecvFromGate` is in no case of it).
A `recvFromClient` carries, besides the received `*ClientRecv`, the environment's
answers to the `Client.Send` calls made while the event is processed: `accepts c` says
whether the Writer of `c` takes the message within the 10 ms.  Every function of the
environment is allowed, also one that lets a stopped client accept. -/
inductive Event
  | join (c : Client)
  | recvFromClient (cr : ClientRecv) (accepts : Client → Bool)
  | closed (c : Client)
  | purge
  | stop

/-- How a run of `Room.run` over a finite list of incoming events ends. -/
inductive RunResult
  /-- Every event was taken; the loop is blocked in its `select`. -/
  | waiting (s : State)
  /-- The function returned; `rest` are the events it never received. -/
  | returned (s : State) (rest : List Event)
  /-- A panic left the function. -/
  | panicked (p : Panic)

/-- Mirror of `func (r *Room) run()`: one event is processed completely before the next
is taken.  `defer log.Println("Room closed.")` runs when the function returns. -/
def Room.run : List Event → State → RunResult
  | [], s => .waiting s
  | .join c :: es, s =>
    Room.run es { s.println (.joined c) with clients := s.clients.insert c }
  | .recvFromClient cr accepts :: es, s =>
    match Room.broadcast cr accepts s with
    | .ok s' => Room.run es s'
    | .error p => .panicked p
  | .closed c :: es, s => Room.run es (s.deleteClient c)
  | .purge :: es, s =>
    match Room.purge s with
    | .ok s' => Room.run es s'
    | .error p => .panicked p
  | .stop :: es, s =>
    match Room.purge s with
    | .ok s' => .returned (s'.println .roomClosed) es
    | .error p => .panicked p

/-- The caller's sequence `c.Stop(); c.Stop(); ...` of `n` calls; a panic that leaves
one call ends the sequence. -/
def stopCalls (c : Client) : Nat → State → Except Panic State
  | 0, s => .ok s
  | n + 1, s =>
    match Client.Stop c s with
    | .ok s' => stopCalls c n s'
    | .error p => .error p

/-- What the two tasks of a client emit. -/
structure Wire where
  /-- Calls of `c.conn.WriteMessage`: message type and payload. -/
  written : List (Nat × String)
  /-- Values sent on `c.recv`, which is `room.RecvFromClient`. -/
  toRecv : List ClientRecv
  /-- Values sent on `c.closed`, which is `room.Closed`. -/
  toClosed : List Client
  /-- Output of package `log`. -/
  log : List LogLine
deriving DecidableEq, Repr

/-- Nothing emitted yet. -/
def Wire.empty : Wire := { written := [], toRecv := [], toClosed := [], log := [] }

/-- How a run of a task over a finite list of events ends. -/
inductive TaskResult (ε : Type)
  /-- Every event was taken; the task is blocked in its loop. -/
  | blocked (w : Wire)
  /-- The task is blocked for ever in a send on a channel of the Room (`c.recv <- ...`
  or the `c.closed <- c` of its deferred function): both channels are unbuffered and
  `Room.run` has returned, so nobody receives.  The task has not returned; `rest` are
  the events it never took. -/
  | parked (w : Wire) (rest : List ε)
  /-- The task left its loop, its deferred function ran to the end and the task
  returned; `rest` are the events it never took. -/
  | exited (w : Wire) (rest : List ε)
deriving DecidableEq, Repr

/-- The deferred function of `sender` and of `receiver`: the log line, then the blocking
send `c.closed <- c`.  `taken` says whether the Room receives the value, which it does
as long as `Room.run` is in its loop. -/
def Client.deferred {ε : Type} (c : Client) (taken : Bool) (w : Wire) (rest : List ε) :
    TaskResult ε :=
  if taken then
    .exited { w with log := w.log ++ [.clientClosed c], toClosed := w.toClosed ++ [c] } rest
  else
    .parked { w with log := w.log ++ [.clientClosed c] } rest

/-- What the `select` of `Client.sender` can take: the stop signal, or a message from
`c.send` together with the result of the `WriteMessage` that follows (`none` for `nil`). -/
inductive SenderEvent
  | stop
  | message (msg : String) (writeErr : Option String)
deriving DecidableEq, Repr

/-- Mirror of `func (c *Client) sender()`.  `roomTakes` says whether the Room receives
what the deferred function sends on `closed`. -/
def Client.sender (c : Client) (roomTakes : Bool) :
    List SenderEvent → Wire → TaskResult SenderEvent
  | [], w => .blocked w
  | .stop :: rest, w => c.deferred roomTakes w rest
  | .message msg none :: rest, w =>
    Client.sender c roomTakes rest { w with written := w.written ++ [(1, msg)] }
  | .message msg (some e) :: rest, w =>
    c.deferred roomTakes { w with written := w.written ++ [(1, msg)],
                                  log := w.log ++ [.sender e] } rest

/-- Result of one `c.conn.ReadMessage()`. -/
inductive ReadResult
  | message (msg : String)
  | failure (e : String)
deriving DecidableEq, Repr

/-- Mirror of `func (c *Client) receiver()`.  The number `k` is how many values the Room
still receives from this task before `Room.run` returns (a Room that never returns
receives every one of them). -/
def Client.receiver (c : Client) : List ReadResult → Nat → Wire → TaskResult ReadResult
  | [], _, w => .blocked w
  | .failure e :: rest, k, w =>
    c.deferred (decide (0 < k)) { w with log := w.log ++ [.receiver e] } rest
  | .message _ :: rest, 0, w => .parked w rest
  | .message msg :: rest, k + 1, w =>
    Client.receiver c rest k { w with toRecv := w.toRecv ++ [⟨c, msg⟩] }

/-- Whether `Room.run` is still in its loop, and so receives what is sent to it. -/
def RunResult.live : RunResult → Bool
  | .waiting _ => true
  | .returned _ _ => false
  | .panicked _ => false

/-- State in which a run of `Room.run` ended, when no panic left it. -/
def RunResult.final : RunResult → Option State
  | .waiting s => some s
  | .returned s _ => some s
  | .panicked _ => none

/-- Events that a run of `Room.run` left untaken. -/
def RunResult.rest : RunResult → List Event
  | .waiting _ => []
  | .returned _ rest => rest
  | .panicked _ => []

/-- Events that `Room.run`, started in `s`, takes out of `es`: all but the ones it leaves. -/
def processed (es : List Event) (s : State) : List Event :=
  es.take (es.length - (Room.run es s).rest.length)

/-- The invariant of the data model, word for word: a client is a member iff it was
admitted by a Join and not since removed by a Closed or a Purge (a Stop purges).
`b` says whether the client is a member before the event. -/
def specMemberStep (c : Client) (b : Bool) : Event → Bool
  | .join d => if d = c then true else b
  | .closed d => if d = c then false else b
  | .purge => false
  | .stop => false
  | .recvFromClient _ _ => b

/-- The invariant of the data model over a history of processed events, from the empty set. -/
def specMember (c : Client) (es : List Event) : Bool :=
  es.foldl (specMemberStep c) false

/-- The invariant with the eviction added: a Broadcast removes a member whose Send fails. -/
def memberStep (c : Client) (b : Bool) : Event → Bool
  | .join d => if d = c then true else b
  | .closed d => if d = c then false else b
  | .purge => false
  | .stop => false
  | .recvFromClient _ accepts => b && accepts c

/-- The amended invariant over a history of processed events. -/
def memberFrom (c : Client) (b : Bool) (es : List Event) : Bool :=
  es.foldl (memberStep c) b

/-! ## Auxiliary facts -/

theorem stop_spec (c : Client) (s : State) :
    ∃ s', Client.Stop c s = .ok s' ∧ s'.clients = s.clients ∧
      s'.stop = Function.update s.stop c true ∧ s'.delivered = s.delivered ∧
      s'.sendCalls = s.sendCalls := by
  unfold Client.Stop closeStop
  by_cases h : s.stop c = true
  · simp only [h, if_true]
    refine ⟨_, rfl, rfl, ?_, rfl, rfl⟩
    show s.stop = _
    rw [← h, Function.update_eq_self]
  · simp only [h]
    exact ⟨_, rfl, rfl, rfl, rfl, rfl⟩

theorem erase_eq_filter_of_nodup {l : List Client} (h : l.Nodup) (c : Client) :
    l.erase c = l.filter (fun x => decide (x ≠ c)) := by
  rw [h.erase_eq_filter]
  congr 1
  funext x
  by_cases hx : x = c <;> simp [hx]

theorem broadcast_loop (accepts : Client → Bool) (msg : String) :
    ∀ (l : List Client) (s : State), l.Nodup → (∀ c ∈ l, c ∈ s.clients.keys) →
      ∃ s', rangeClients (broadcastBody accepts msg) l s = .ok s' ∧
        s'.sendCalls = s.sendCalls ++ l.map (fun c => (c, msg)) ∧
        (∀ x, s'.delivered x
            = s.delivered x ++ if x ∈ l ∧ accepts x = true then [msg] else []) ∧
        s'.clients.keys = s.clients.keys.filter (fun x => decide (x ∉ l) || accepts x) ∧
        (∀ x, s'.stop x = (s.stop x || (decide (x ∈ l) && !accepts x))) := by
  intro l
  induction l with
  | nil =>
    intro s _ _
    refine ⟨s, rfl, by simp, by simp, by simp, by simp⟩
  | cons c rest ih =>
    intro s hnd hmem
    have hc : c ∈ s.clients.keys := hmem c (List.mem_cons_self _ _)
    have hcr : c ∉ rest := (List.nodup_cons.mp hnd).1
    have hrest : rest.Nodup := (List.nodup_cons.mp hnd).2
    by_cases ha : accepts c = true
    · -- the rendezvous on `c.send` happened
      have hbody : broadcastBody accepts msg c s = .ok
          { s with sendCalls := s.sendCalls ++ [(c, msg)],
                   delivered := Function.update s.delivered c (s.delivered c ++ [msg]) } := by
        simp [broadcastBody, Client.Send, ha]
      obtain ⟨s', hrun, hcalls, hdel, hkeys, hstop⟩ :=
        ih { s with sendCalls := s.sendCalls ++ [(c, msg)],
                    delivered := Function.update s.delivered c (s.delivered c ++ [msg]) }
          hrest (fun x hx => hmem x (List.mem_cons_of_mem _ hx))
      refine ⟨s', ?_, ?_, ?_, ?_, ?_⟩
      · simp only [rangeClients, hc, if_true, hbody]; exact hrun
      · rw [hcalls]; simp
      · intro x
        rw [hdel x]
        by_cases hx : x = c
        · subst hx; simp [hcr, ha]
        · simp [Function.update_noteq hx, hx]
      · rw [hkeys]
        apply List.filter_congr
        intro x _
        by_cases hx : x = c
        · subst hx; simp [ha]
        · simp [hx]
      · intro x
        rw [hstop x]
        by_cases hx : x = c
        · subst hx; simp [ha, hcr]
        · simp [hx]
    · -- the timer fired: log, Stop, delete
      have ha' : accepts c = false := by simpa using ha
      obtain ⟨s2, hs2, hcl2, hst2, hdl2, hsc2⟩ := stop_spec c
        ({ s with sendCalls := s.sendCalls ++ [(c, msg)] }.println (.err "Can't send to client"))
      have hbody : broadcastBody accepts msg c s = .ok (s2.deleteClient c) := by
        simp only [broadcastBody, Client.Send, ha', Bool.false_eq_true, if_false, hs2]
      have hk2 : (s2.deleteClient c).clients.keys = s.clients.keys.erase c := by
        simp [State.deleteClient, ClientMap.delete, hcl2, State.println]
      obtain ⟨s', hrun, hcalls, hdel, hkeys, hstop⟩ := ih (s2.deleteClient c) hrest (by
        intro x hx
        rw [hk2]
        exact (List.mem_erase_of_ne (fun (h : x = c) => hcr (h ▸ hx))).mpr
          (hmem x (List.mem_cons_of_mem _ hx)))
      refine ⟨s', ?_, ?_, ?_, ?_, ?_⟩
      · simp only [rangeClients, hc, if_true, hbody]; exact hrun
      · rw [hcalls]; simp [State.deleteClient, hsc2, State.println]
      · intro x
        rw [hdel x]
        by_cases hx : x = c
        · subst hx; simp [hcr, ha', State.deleteClient, hdl2, State.println]
        · simp [hx, State.deleteClient, hdl2, State.println]
      · rw [hkeys, hk2, erase_eq_filter_of_nodup s.clients.nodup, List.filter_filter]
        apply List.filter_congr
        intro x _
        by_cases hx : x = c
        · subst hx; simp [ha']
        · simp [hx]
      · intro x
        rw [hstop x]
        by_cases hx : x = c
        · subst hx; simp [ha', hcr, State.deleteClient, hst2]
        · simp [hx, State.deleteClient, hst2, State.println, Function.update_noteq hx]

theorem purge_loop :
    ∀ (l : List Client) (s : State), l.Nodup → (∀ c ∈ l, c ∈ s.clients.keys) →
      ∃ s', rangeClients purgeBody l s = .ok s' ∧
        s'.clients.keys = s.clients.keys.filter (fun x => decide (x ∉ l)) ∧
        (∀ x, s'.stop x = (s.stop x || decide (x ∈ l))) ∧
        s'.delivered = s.delivered ∧ s'.sendCalls = s.sendCalls := by
  intro l
  induction l with
  | nil =>
    intro s _ _
    exact ⟨s, rfl, by simp, by simp, rfl, rfl⟩
  | cons c rest ih =>
    intro s hnd hmem
    have hc : c ∈ s.clients.keys := hmem c (List.mem_cons_self _ _)
    have hcr : c ∉ rest := (List.nodup_cons.mp hnd).1
    have hrest : rest.Nodup := (List.nodup_cons.mp hnd).2
    obtain ⟨s2, hs2, hcl2, hst2, hdl2, hsc2⟩ := stop_spec c s
    have hbody : purgeBody c s = .ok (s2.deleteClient c) := by
      simp only [purgeBody, hs2]
    have hk2 : (s2.deleteClient c).clients.keys = s.clients.keys.erase c := by
      simp [State.deleteClient, ClientMap.delete, hcl2]
    obtain ⟨s', hrun, hkeys, hstop, hdel, hcalls⟩ := ih (s2.deleteClient c) hrest (by
      intro x hx
      rw [hk2]
      exact (List.mem_erase_of_ne (fun (h : x = c) => hcr (h ▸ hx))).mpr
        (hmem x (List.mem_cons_of_mem _ hx)))
    refine ⟨s', ?_, ?_, ?_, ?_, ?_⟩
    · simp only [rangeClients, hc, if_true, hbody]; exact hrun
    · rw [hkeys, hk2, erase_eq_filter_of_nodup s.clients.nodup, List.filter_filter]
      apply List.filter_congr
      intro x _
      by_cases hx : x = c
      · subst hx; simp
      · simp [hx]
    · intro x
      rw [hstop x]
      by_cases hx : x = c
      · subst hx; simp [State.deleteClient, hst2]
      · simp [hx, State.deleteClient, hst2, Function.update_noteq hx]
    · rw [hdel]; simp [State.deleteClient, hdl2]
    · rw [hcalls]; simp [State.deleteClient, hsc2]

theorem purge_spec (s : State) :
    ∃ s', Room.purge s = .ok s' ∧ s'.clients.keys = [] ∧
      (∀ x, s'.stop x = (s.stop x || decide (x ∈ s.clients.keys))) ∧
      s'.delivered = s.delivered ∧ s'.sendCalls = s.sendCalls := by
  obtain ⟨s', hrun, hkeys, hstop, hdel, hcalls⟩ :=
    purge_loop s.clients.keys s s.clients.nodup (fun _ h => h)
  refine ⟨s', hrun, ?_, hstop, hdel, hcalls⟩
  rw [hkeys, List.filter_eq_nil_iff]
  intro x hx
  simp [hx]

theorem broadcast_spec (cr : ClientRecv) (accepts : Client → Bool) (s : State) :
    ∃ s', Room.broadcast cr accepts s = .ok s' ∧
      s'.sendCalls = s.sendCalls ++ s.clients.keys.map (fun c => (c, cr.message)) ∧
      (∀ x, s'.delivered x = s.delivered x ++
          if x ∈ s.clients.keys ∧ accepts x = true then [cr.message] else []) ∧
      s'.clients.keys = s.clients.keys.filter accepts ∧
      (∀ x, s'.stop x = (s.stop x || (decide (x ∈ s.clients.keys) && !accepts x))) := by
  obtain ⟨s', hrun, hcalls, hdel, hkeys, hstop⟩ :=
    broadcast_loop accepts cr.message s.clients.keys s s.clients.nodup (fun _ h => h)
  refine ⟨s'.println (.recvFromClient cr), ?_, hcalls, hdel, ?_, hstop⟩
  · simp only [Room.broadcast, hrun]
  · show s'.clients.keys = _
    rw [hkeys]
    apply List.filter_congr
    intro x hx
    simp [hx]

theorem count_map_pair (msg : String) (c : Client) :
    ∀ {l : List Client}, l.Nodup →
      (l.map (fun x => (x, msg))).count (c, msg) = if c ∈ l then 1 else 0 := by
  intro l
  induction l with
  | nil => intro _; simp
  | cons a rest ih =>
    intro h
    have har : a ∉ rest := (List.nodup_cons.mp h).1
    have ih' := ih (List.nodup_cons.mp h).2
    rw [List.map_cons, List.count_cons, ih']
    by_cases hc : a = c
    · subst hc; simp [har]
    · have hc' : ¬ c = a := fun e => hc e.symm
      simp [hc, hc']

theorem ClientMap.eq_of_keys {a b : ClientMap} (h : a.keys = b.keys) : a = b := by
  cases a
  cases b
  simp only at h
  subst h
  rfl

theorem mem_insert_keys (m : ClientMap) (d c : Client) :
    c ∈ (m.insert d).keys ↔ c = d ∨ c ∈ m.keys := by
  unfold ClientMap.insert
  by_cases h : d ∈ m.keys
  · simp only [h, dite_true]
    constructor
    · exact Or.inr
    · rintro (rfl | h')
      · exact h
      · exact h'
  · simp only [h, dite_false, List.mem_append, List.mem_singleton]
    tauto

theorem mem_delete_keys (m : ClientMap) (d c : Client) :
    c ∈ (m.delete d).keys ↔ c ∈ m.keys ∧ c ≠ d := by
  show c ∈ m.keys.erase d ↔ _
  rw [m.nodup.mem_erase_iff]
  tauto

/-- A client that is no member, and that no later event joins, gets no Send. -/
theorem run_no_send (c : Client) :
    ∀ (es : List Event) (s : State), c ∉ s.clients.keys → (∀ e ∈ es, e ≠ Event.join c) →
      ∃ sf later, (Room.run es s).final = some sf ∧ c ∉ sf.clients.keys ∧
        sf.sendCalls = s.sendCalls ++ later ∧ ∀ p ∈ later, p.1 ≠ c := by
  intro es
  induction es with
  | nil =>
    intro s hc _
    exact ⟨s, [], rfl, hc, by simp, by simp⟩
  | cons e es ih =>
    intro s hc hne
    have hes : ∀ e' ∈ es, e' ≠ Event.join c := fun e' h => hne e' (List.mem_cons_of_mem _ h)
    cases e with
    | join d =>
      have hd : d ≠ c := fun h => hne (Event.join d) (List.mem_cons_self _ _) (h ▸ rfl)
      have hc' : c ∉ (s.clients.insert d).keys := by
        rw [mem_insert_keys]
        rintro (h | h)
        · exact hd h.symm
        · exact hc h
      obtain ⟨sf, later, hf, hm, hcalls, hl⟩ :=
        ih { s.println (.joined d) with clients := s.clients.insert d } hc' hes
      exact ⟨sf, later, by simpa only [Room.run] using hf, hm, hcalls, hl⟩
    | recvFromClient cr accepts =>
      obtain ⟨s1, hb, hcalls1, _, hkeys1, _⟩ := broadcast_spec cr accepts s
      have hc' : c ∉ s1.clients.keys := by
        rw [hkeys1]
        exact fun h => hc (List.mem_of_mem_filter h)
      obtain ⟨sf, later, hf, hm, hcalls, hl⟩ := ih s1 hc' hes
      refine ⟨sf, s.clients.keys.map (fun x => (x, cr.message)) ++ later, ?_, hm, ?_, ?_⟩
      · simp only [Room.run, hb]; exact hf
      · rw [hcalls, hcalls1, List.append_assoc]
      · intro p hp
        rcases List.mem_append.mp hp with h | h
        · obtain ⟨x, hx, rfl⟩ := List.mem_map.mp h
          exact fun (h' : x = c) => hc (h' ▸ hx)
        · exact hl p h
    | closed d =>
      have hc' : c ∉ (s.deleteClient d).clients.keys :=
        fun h => hc ((mem_delete_keys s.clients d c).mp h).1
      obtain ⟨sf, later, hf, hm, hcalls, hl⟩ := ih (s.deleteClient d) hc' hes
      exact ⟨sf, later, by simpa only [Room.run] using hf, hm, hcalls, hl⟩
    | purge =>
      obtain ⟨s1, hp, hkeys1, _, _, hcalls1⟩ := purge_spec s
      have hc' : c ∉ s1.clients.keys := by rw [hkeys1]; simp
      obtain ⟨sf, later, hf, hm, hcalls, hl⟩ := ih s1 hc' hes
      refine ⟨sf, later, ?_, hm, ?_, hl⟩
      · simp only [Room.run, hp]; exact hf
      · rw [hcalls, hcalls1]
    | stop =>
      obtain ⟨s1, hp, hkeys1, _, _, hcalls1⟩ := purge_spec s
      refine ⟨s1.println .roomClosed, [], ?_, ?_, ?_, by simp⟩
      · simp only [Room.run, hp, RunResult.final]
      · show c ∉ s1.clients.keys
        rw [hkeys1]; simp
      · show s1.sendCalls = _
        rw [hcalls1]; simp

theorem rest_length_le :
    ∀ (es : List Event) (s : State), (Room.run es s).rest.length ≤ es.length := by
  intro es
  induction es with
  | nil => intro s; simp [Room.run, RunResult.rest]
  | cons e es ih =>
    intro s
    cases e with
    | join d =>
      simp only [Room.run, List.length_cons]
      exact Nat.le_succ_of_le (ih _)
    | recvFromClient cr accepts =>
      obtain ⟨s1, hb, _⟩ := broadcast_spec cr accepts s
      simp only [Room.run, hb, List.length_cons]
      exact Nat.le_succ_of_le (ih _)
    | closed d =>
      simp only [Room.run, List.length_cons]
      exact Nat.le_succ_of_le (ih _)
    | purge =>
      obtain ⟨s1, hp, _⟩ := purge_spec s
      simp only [Room.run, hp, List.length_cons]
      exact Nat.le_succ_of_le (ih _)
    | stop =>
      obtain ⟨s1, hp, _⟩ := purge_spec s
      simp only [Room.run, hp, RunResult.rest, List.length_cons]
      exact Nat.le_succ _

/-- When taking `e` leads from `s` to `s1` and the loop goes on, `e` is processed and
then what the loop processes from `s1`. -/
theorem processed_cons (e : Event) (es : List Event) (s s1 : State)
    (h : Room.run (e :: es) s = Room.run es s1) :
    processed (e :: es) s = e :: processed es s1 := by
  unfold processed
  rw [h, List.length_cons, Nat.succ_sub (rest_length_le es s1), List.take_succ_cons]

/-- The run never panics, and its members are the ones that the amended invariant
names, at every starting state. -/
theorem run_members :
    ∀ (es : List Event) (s : State), ∃ sf, (Room.run es s).final = some sf ∧
      ∀ c, c ∈ sf.clients.keys ↔
        memberFrom c (decide (c ∈ s.clients.keys)) (processed es s) = true := by
  intro es
  induction es with
  | nil =>
    intro s
    exact ⟨s, rfl, by simp [processed, memberFrom]⟩
  | cons e es ih =>
    intro s
    cases e with
    | join d =>
      have hrun : Room.run (.join d :: es) s
          = Room.run es { s.println (.joined d) with clients := s.clients.insert d } := rfl
      obtain ⟨sf, hf, hm⟩ := ih { s.println (.joined d) with clients := s.clients.insert d }
      refine ⟨sf, by rw [hrun]; exact hf, ?_⟩
      intro c
      rw [hm c, processed_cons _ _ _ _ hrun]
      have hb : decide (c ∈ (s.clients.insert d).keys)
          = memberStep c (decide (c ∈ s.clients.keys)) (.join d) := by
        by_cases hdc : d = c
        · subst hdc
          simp [memberStep, mem_insert_keys]
        · have hcd : ¬ c = d := fun e => hdc e.symm
          simp [memberStep, mem_insert_keys, hdc, hcd]
      simp only [memberFrom, List.foldl_cons]
      rw [← hb]
    | recvFromClient cr accepts =>
      obtain ⟨s1, hbr, _, _, hkeys, _⟩ := broadcast_spec cr accepts s
      have hrun : Room.run (.recvFromClient cr accepts :: es) s = Room.run es s1 := by
        simp only [Room.run, hbr]
      obtain ⟨sf, hf, hm⟩ := ih s1
      refine ⟨sf, by rw [hrun]; exact hf, ?_⟩
      intro c
      rw [hm c, processed_cons _ _ _ _ hrun]
      have hb : decide (c ∈ s1.clients.keys)
          = memberStep c (decide (c ∈ s.clients.keys)) (.recvFromClient cr accepts) := by
        rw [hkeys]
        simp [memberStep, List.mem_filter]
      simp only [memberFrom, List.foldl_cons]
      rw [← hb]
    | closed d =>
      have hrun : Room.run (.closed d :: es) s = Room.run es (s.deleteClient d) := rfl
      obtain ⟨sf, hf, hm⟩ := ih (s.deleteClient d)
      refine ⟨sf, by rw [hrun]; exact hf, ?_⟩
      intro c
      rw [hm c, processed_cons _ _ _ _ hrun]
      have hb : decide (c ∈ (s.deleteClient d).clients.keys)
          = memberStep c (decide (c ∈ s.clients.keys)) (.closed d) := by
        have hiff := mem_delete_keys s.clients d c
        by_cases hdc : d = c
        · subst hdc
          simp [memberStep, State.deleteClient, hiff]
        · have hcd : ¬ c = d := fun e => hdc e.symm
          simp [memberStep, State.deleteClient, hiff, hdc, hcd]
      simp only [memberFrom, List.foldl_cons]
      rw [← hb]
    | purge =>
      obtain ⟨s1, hp, hkeys, _⟩ := purge_spec s
      have hrun : Room.run (.purge :: es) s = Room.run es s1 := by
        simp only [Room.run, hp]
      obtain ⟨sf, hf, hm⟩ := ih s1
      refine ⟨sf, by rw [hrun]; exact hf, ?_⟩
      intro c
      rw [hm c, processed_cons _ _ _ _ hrun]
      have hb : decide (c ∈ s1.clients.keys)
          = memberStep c (decide (c ∈ s.clients.keys)) .purge := by
        rw [hkeys]
        simp [memberStep]
      simp only [memberFrom, List.foldl_cons]
      rw [← hb]
    | stop =>
      obtain ⟨s1, hp, hkeys, _⟩ := purge_spec s
      have hrun : Room.run (.stop :: es) s = .returned (s1.println .roomClosed) es := by
        simp only [Room.run, hp]
      refine ⟨s1.println .roomClosed, by rw [hrun]; rfl, ?_⟩
      intro c
      have hproc : processed (.stop :: es) s = [.stop] := by
        unfold processed
        rw [hrun]
        simp [RunResult.rest]
      rw [hproc]
      show c ∈ s1.clients.keys ↔ _
      rw [hkeys]
      simp [memberFrom, memberStep]

/-! ## The claims -/

/-- C1, broadcast completeness.  When the Room processes one `RecvFromClient` event in
any state, no panic occurs, the loop goes on with the next event, and the calls of
`Client.Send` made meanwhile are: exactly one for every client that was a member when
the event was taken, with exactly the text of the event, and no other call.  The
clients that get a copy of the text are exactly the members whose Send was accepted,
and each gets exactly one copy. -/
theorem broadcast_completeness (s : State) (cr : ClientRecv) (accepts : Client → Bool)
    (es : List Event) :
    ∃ s' calls, Room.broadcast cr accepts s = .ok s' ∧
      Room.run (.recvFromClient cr accepts :: es) s = Room.run es s' ∧
      s'.sendCalls = s.sendCalls ++ calls ∧
      (∀ c, calls.count (c, cr.message) = if c ∈ s.clients.keys then 1 else 0) ∧
      (∀ p ∈ calls, p.2 = cr.message) ∧
      (∀ c, s'.delivered c = s.delivered c ++
          if c ∈ s.clients.keys ∧ accepts c = true then [cr.message] else []) := by
  obtain ⟨s', hb, hcalls, hdel, _, _⟩ := broadcast_spec cr accepts s
  refine ⟨s', _, hb, ?_, hcalls, ?_, ?_, hdel⟩
  · simp only [Room.run, hb]
  · intro c
    exact count_map_pair cr.message c s.clients.nodup
  · intro p hp
    obtain ⟨x, _, rfl⟩ := List.mem_map.mp hp
    rfl

/-- C2, eviction on stall.  Let `c` be a member whose Send fails while the Room
processes a `RecvFromClient` event.  Then within this event exactly one Send to `c` is
made, the stop channel of `c` is closed and `c` is no member afterwards; the members
after the event are exactly the prior members whose Send was accepted; and whatever
events follow, as long as none of them joins `c` again, no further Send to `c` is
made. -/
theorem eviction_on_stall (s : State) (cr : ClientRecv) (accepts : Client → Bool)
    (c : Client) (hc : c ∈ s.clients.keys) (hfail : accepts c = false) :
    ∃ s' calls, Room.broadcast cr accepts s = .ok s' ∧
      s'.sendCalls = s.sendCalls ++ calls ∧
      (calls.filter (fun p => p.1 = c)) = [(c, cr.message)] ∧
      s'.stop c = true ∧
      c ∉ s'.clients.keys ∧
      s'.clients.keys = s.clients.keys.filter accepts ∧
      (∀ x, x ∈ s'.clients.keys ↔ x ∈ s.clients.keys ∧ accepts x = true) ∧
      ∀ es : List Event, (∀ e ∈ es, e ≠ Event.join c) →
        ∃ sf later, (Room.run es s').final = some sf ∧
          sf.sendCalls = s'.sendCalls ++ later ∧ ∀ p ∈ later, p.1 ≠ c := by
  obtain ⟨s', hb, hcalls, _, hkeys, hstop⟩ := broadcast_spec cr accepts s
  have hout : c ∉ s'.clients.keys := by
    rw [hkeys, List.mem_filter]
    simp [hfail]
  refine ⟨s', _, hb, hcalls, ?_, ?_, hout, hkeys, ?_, ?_⟩
  · rw [List.filter_map]
    have hf : s.clients.keys.filter ((fun p : Client × String => decide (p.1 = c)) ∘
        fun x => (x, cr.message)) = [c] := by
      have h1 : ((fun p : Client × String => decide (p.1 = c)) ∘
          fun x => (x, cr.message)) = fun x => decide (x = c) := rfl
      rw [h1]
      have h3 : s.clients.keys.filter (fun x => decide (x = c))
          = List.replicate (s.clients.keys.count c) c := by
        have := List.filter_eq s.clients.keys c
        rw [← this]
      rw [h3, List.count_eq_one_of_mem s.clients.nodup hc]
      rfl
    rw [hf]
    rfl
  · rw [hstop c]
    simp [hc, hfail]
  · intro x
    rw [hkeys, List.mem_filter]
  · intro es hes
    obtain ⟨sf, later, hf, _, hcalls', hl⟩ := run_no_send c es s' hout hes
    exact ⟨sf, later, hf, hcalls', hl⟩

/-- Witness for C2: members 0 and 1, the Send to 0 times out, then a second broadcast. -/
theorem eviction_on_stall_witness :
    ∃ s, (Room.run [.join 0, .join 1] newRoom).final = some s ∧
      (0 : Client) ∈ s.clients.keys ∧
      ∃ s' calls, Room.broadcast ⟨1, "ping"⟩ (fun c => decide (c = 1)) s = .ok s' ∧
        s'.sendCalls = s.sendCalls ++ calls ∧
        (calls.filter (fun p => p.1 = 0)) = [(0, "ping")] ∧
        s'.stop 0 = true ∧
        (0 : Client) ∉ s'.clients.keys ∧
        s'.clients.keys = s.clients.keys.filter (fun c => decide (c = 1)) ∧
        (∀ x, x ∈ s'.clients.keys ↔ x ∈ s.clients.keys ∧ decide (x = 1) = true) ∧
        ∀ es : List Event, (∀ e ∈ es, e ≠ Event.join 0) →
          ∃ sf later, (Room.run es s').final = some sf ∧
            sf.sendCalls = s'.sendCalls ++ later ∧ ∀ p ∈ later, p.1 ≠ 0 :=
  ⟨_, rfl, by decide,
    eviction_on_stall _ ⟨1, "ping"⟩ (fun c => decide (c = 1)) 0 (by decide) (by decide)⟩

/-- C3 as stated fails: client 0 joins and is evicted by a broadcast whose Send to it
times out; its Reader is still running and forwards a second message.  While the Room
processes that second event, with 0 as originator, no Send is made at all, so the
originator is no recipient. -/
theorem self_delivery_counterexample :
    ((Room.run [.join 0, .recvFromClient ⟨0, "a"⟩ (fun _ => false)] newRoom).final.map
        (fun s => (s.clients.keys, s.sendCalls, s.delivered 0))) = some ([], [(0, "a")], []) ∧
    ((Room.run [.join 0, .recvFromClient ⟨0, "a"⟩ (fun _ => false),
        .recvFromClient ⟨0, "b"⟩ (fun _ => true)] newRoom).final.map
        (fun s => (s.clients.keys, s.sendCalls, s.delivered 0))) = some ([], [(0, "a")], []) := by
  decide

/-- C3, amended.  When the originator of a `RecvFromClient` event is a member at the time
the event is taken, exactly one Send with the text is made to it, as to every member,
and it gets a copy iff that Send is accepted.  Whoever the originator is, member or not,
the Sends made, the copies handed over, the members left and the stop channels are the
same: the event with another originator `o` differs in the log line only. -/
theorem self_delivery (s : State) (cr : ClientRecv) (accepts : Client → Bool) :
    ∃ s' calls, Room.broadcast cr accepts s = .ok s' ∧
      s'.sendCalls = s.sendCalls ++ calls ∧
      (cr.client ∈ s.clients.keys →
        calls.count (cr.client, cr.message) = 1 ∧
        s'.delivered cr.client = s.delivered cr.client ++
          (if accepts cr.client = true then [cr.message] else [])) ∧
      (∀ c ∈ s.clients.keys, calls.count (c, cr.message) = 1) ∧
      ∀ o : Client, ∃ s'', Room.broadcast ⟨o, cr.message⟩ accepts s = .ok s'' ∧
        s''.sendCalls = s'.sendCalls ∧ s''.delivered = s'.delivered ∧
        s''.clients = s'.clients ∧ s''.stop = s'.stop := by
  obtain ⟨s0, hrun, hcalls, hdel, _, _⟩ :=
    broadcast_loop accepts cr.message s.clients.keys s s.clients.nodup (fun _ h => h)
  have hcount : ∀ c ∈ s.clients.keys,
      (s.clients.keys.map (fun x => (x, cr.message))).count (c, cr.message) = 1 := by
    intro c hc
    rw [count_map_pair cr.message c s.clients.nodup]
    simp [hc]
  refine ⟨s0.println (.recvFromClient cr), _, ?_, hcalls, ?_, hcount, ?_⟩
  · simp only [Room.broadcast, hrun]
  · intro h
    refine ⟨hcount _ h, ?_⟩
    show s0.delivered cr.client = _
    rw [hdel cr.client]
    simp [h]
  · intro o
    refine ⟨s0.println (.recvFromClient ⟨o, cr.message⟩), ?_, rfl, rfl, rfl, rfl⟩
    simp only [Room.broadcast, hrun]

/-- Witness for C3: members 0, 1, 2; client 0 sends "hello". -/
theorem self_delivery_witness :
    ∃ s, (Room.run [.join 0, .join 1, .join 2] newRoom).final = some s ∧
      (0 : Client) ∈ s.clients.keys ∧
      ∃ s' calls, Room.broadcast ⟨0, "hello"⟩ (fun _ => true) s = .ok s' ∧
        s'.sendCalls = s.sendCalls ++ calls ∧
        calls.count (0, "hello") = 1 ∧
        (∀ c ∈ s.clients.keys, calls.count (c, "hello") = 1) ∧
        s'.delivered 0 = s.delivered 0 ++
          (if (fun _ : Client => true) 0 = true then ["hello"] else []) ∧
        ∀ o : Client, ∃ s'', Room.broadcast ⟨o, "hello"⟩ (fun _ => true) s = .ok s'' ∧
          s''.sendCalls = s'.sendCalls ∧ s''.delivered = s'.delivered ∧
          s''.clients = s'.clients ∧ s''.stop = s'.stop := by
  refine ⟨_, rfl, by decide, ?_⟩
  obtain ⟨s', calls, hb, hc, hself, hall, hind⟩ :=
    self_delivery _ ⟨0, "hello"⟩ (fun _ => true)
  exact ⟨s', calls, hb, hc, (hself (by decide)).1, hall, (hself (by decide)).2, hind⟩

/-- C4, purge clears all.  When the Room processes a `Purge` event in any state, no panic
occurs, the map is empty afterwards, the stop channel of every client that was a member
is closed (also when it was closed before: `Stop` recovers), a stop channel that was
closed stays closed, and the loop goes on with the next event. -/
theorem purge_clears_all (s : State) (es : List Event) :
    ∃ s', Room.purge s = .ok s' ∧
      s'.clients.keys = [] ∧
      (∀ c ∈ s.clients.keys, s'.stop c = true) ∧
      (∀ c, s.stop c = true → s'.stop c = true) ∧
      Room.run [.purge] s = .waiting s' ∧
      Room.run (.purge :: es) s = Room.run es s' := by
  obtain ⟨s', hp, hkeys, hstop, _, _⟩ := purge_spec s
  refine ⟨s', hp, hkeys, ?_, ?_, ?_, ?_⟩
  · intro c hc
    rw [hstop c]; simp [hc]
  · intro c hc
    rw [hstop c]; simp [hc]
  · simp only [Room.run, hp]
  · simp only [Room.run, hp]

/-- Witness for C4: member 0 was stopped before by hand (its stop channel is closed),
member 1 was not; both are purged, and the event that follows is processed. -/
theorem purge_clears_all_witness :
    ((Room.run [.join 0, .join 1, .purge, .join 2] newRoom).final.map
      (fun s => (s.clients.keys, s.stop 0, s.stop 1))) = some ([2], true, true) ∧
    ∃ s', Room.purge { newRoom with clients := ⟨[0, 1], by decide⟩,
                                    stop := fun c => decide (c = 0) } = .ok s' ∧
      s'.clients.keys = [] ∧ s'.stop 0 = true ∧ s'.stop 1 = true :=
  ⟨by decide, by
    obtain ⟨s', hp, hk, hs, _, _, _⟩ := purge_clears_all
      { newRoom with clients := ⟨[0, 1], by decide⟩, stop := fun c => decide (c = 0) } []
    exact ⟨s', hp, hk, hs 0 (by decide), hs 1 (by decide)⟩⟩

/-- C8, stop terminates.  When the Room processes a `Stop` event in any state it purges
(no panic, the map is empty afterwards, the stop channel of every prior member is
closed) and `run` returns: the result is the purged state with the line "Room closed."
logged, the events `es` that follow are all left untaken, and the state in which the
Room ends is the same whatever they are. -/
theorem stop_terminates (s : State) (es : List Event) :
    ∃ s', Room.purge s = .ok s' ∧
      s'.clients.keys = [] ∧
      (∀ c ∈ s.clients.keys, s'.stop c = true) ∧
      Room.run (.stop :: es) s = .returned (s'.println .roomClosed) es ∧
      (Room.run (.stop :: es) s).rest = es ∧
      (Room.run (.stop :: es) s).final = (Room.run [.stop] s).final := by
  obtain ⟨s', hp, hkeys, hstop, _, _⟩ := purge_spec s
  refine ⟨s', hp, hkeys, ?_, ?_, ?_, ?_⟩
  · intro c hc
    rw [hstop c]; simp [hc]
  · simp only [Room.run, hp]
  · simp only [Room.run, hp, RunResult.rest]
  · simp only [Room.run, hp, RunResult.final]

/-- Witness for C8: two members, a Stop, and one event of every kind after it. -/
theorem stop_terminates_witness :
    ((Room.run [.join 0, .join 1, .stop, .join 2, .recvFromClient ⟨2, "x"⟩ (fun _ => true),
        .closed 2, .purge, .stop] newRoom).final.map
      (fun s => (s.clients.keys, s.stop 0, s.stop 1, s.stop 2, s.sendCalls, s.log))) =
      some ([], true, true, false, [], [.joined 0, .joined 1, .roomClosed]) ∧
    (Room.run [.join 0, .join 1, .stop, .join 2, .recvFromClient ⟨2, "x"⟩ (fun _ => true),
        .closed 2, .purge, .stop] newRoom).rest.length = 5 ∧
    ∃ s', Room.purge newRoom = .ok s' ∧ Room.run [.stop, .join 2] newRoom
      = .returned (s'.println .roomClosed) [.join 2] :=
  ⟨rfl, by decide, by
    obtain ⟨s', hp, _, _, hr, _, _⟩ := stop_terminates newRoom [.join 2]
    exact ⟨s', hp, hr⟩⟩

/-- C5 as stated fails: client 0 joins and a broadcast evicts it after a failed Send.
No Closed, Purge or Stop was processed, so the invariant as worded makes 0 a member;
in the map of the Room it is none. -/
theorem membership_invariant_counterexample :
    processed [.join 0, .recvFromClient ⟨0, "a"⟩ (fun _ => false)] newRoom
      = [.join 0, .recvFromClient ⟨0, "a"⟩ (fun _ => false)] ∧
    specMember 0 (processed [.join 0, .recvFromClient ⟨0, "a"⟩ (fun _ => false)] newRoom)
      = true ∧
    ((Room.run [.join 0, .recvFromClient ⟨0, "a"⟩ (fun _ => false)] newRoom).final.map
      (fun s => decide (0 ∈ s.clients.keys))) = some false :=
  ⟨rfl, rfl, rfl⟩

/-- C5, amended.  For every finite list of incoming events, the run of the Room from the
empty map does not panic, and in the state where it ends a client is a member iff,
among the events that the Room processed, it was admitted by a Join and not removed
since by a Closed, by a Purge or Stop, or by a broadcast in which its Send failed. -/
theorem membership_invariant (es : List Event) :
    ∃ sf, (Room.run es newRoom).final = some sf ∧
      ∀ c, c ∈ sf.clients.keys ↔ memberFrom c false (processed es newRoom) = true := by
  obtain ⟨sf, hf, hm⟩ := run_members es newRoom
  refine ⟨sf, hf, ?_⟩
  intro c
  rw [hm c]
  simp [newRoom, ClientMap.empty]

/-- C6, idempotent departure.  When the Room processes a `Closed` event for `c` in any
state, no panic occurs and the loop goes on; nothing but the map changes; when `c` is
no member the state is unchanged; in every case the members afterwards are the prior
members other than `c`, in their order; and processing the same departure twice gives
what processing it once gives. -/
theorem departure_idempotent (s : State) (c : Client) (es : List Event) :
    Room.run [.closed c] s = .waiting (s.deleteClient c) ∧
    Room.run (.closed c :: es) s = Room.run es (s.deleteClient c) ∧
    (c ∉ s.clients.keys → s.deleteClient c = s) ∧
    (s.deleteClient c).clients.keys = s.clients.keys.filter (fun x => decide (x ≠ c)) ∧
    (∀ x, x ∈ (s.deleteClient c).clients.keys ↔ x ∈ s.clients.keys ∧ x ≠ c) ∧
    ((s.deleteClient c).stop = s.stop ∧ (s.deleteClient c).delivered = s.delivered ∧
      (s.deleteClient c).sendCalls = s.sendCalls ∧ (s.deleteClient c).log = s.log) ∧
    (s.deleteClient c).deleteClient c = s.deleteClient c ∧
    Room.run (.closed c :: .closed c :: es) s = Room.run (.closed c :: es) s := by
  have hid : ∀ t : State, c ∉ t.clients.keys → t.deleteClient c = t := by
    intro t ht
    have hk : t.clients.delete c = t.clients :=
      ClientMap.eq_of_keys (List.erase_of_not_mem ht)
    unfold State.deleteClient
    rw [hk]
  have hout : c ∉ (s.deleteClient c).clients.keys :=
    fun h => ((mem_delete_keys s.clients c c).mp h).2 rfl
  refine ⟨rfl, rfl, hid s, erase_eq_filter_of_nodup s.clients.nodup c,
    fun x => mem_delete_keys s.clients c x, ⟨rfl, rfl, rfl, rfl⟩, hid _ hout, ?_⟩
  show Room.run es ((s.deleteClient c).deleteClient c) = Room.run es (s.deleteClient c)
  rw [hid _ hout]

/-- Witness for C6: members 0, 1, 2; a departure of the absent 7 changes nothing, a
departure of 1 removes 1 only, and a second departure of 1 changes nothing more. -/
theorem departure_idempotent_witness :
    ((Room.run [.join 0, .join 1, .join 2, .closed 7] newRoom).final.map
      (fun s => s.clients.keys)) = some [0, 1, 2] ∧
    ((Room.run [.join 0, .join 1, .join 2, .closed 1] newRoom).final.map
      (fun s => s.clients.keys)) = some [0, 2] ∧
    ((Room.run [.join 0, .join 1, .join 2, .closed 1, .closed 1] newRoom).final.map
      (fun s => s.clients.keys)) = some [0, 2] ∧
    (newRoom.deleteClient 7 = newRoom) :=
  ⟨by decide, by decide, by decide,
    (departure_idempotent newRoom 7 []).2.2.1 (by decide)⟩

/-- The calls of `Stop` are idempotent.  In any state, every call of `Stop` on a client
returns normally, and afterwards the stop channel is closed.  When the channel was open,
the first call closes it and changes nothing else.  In a sequence of `n + 1` calls, the
`n` calls after the first each panic inside on the closed channel, recover, and leave
every field of the state as the first call left it, apart from the log, which gets one
line per recovered panic. -/
theorem stop_calls_spec (c : Client) (s : State) :
    ∃ s1, Client.Stop c s = .ok s1 ∧ s1.stop c = true ∧
      (s.stop c = false → s1 = { s with stop := Function.update s.stop c true }) ∧
      ∀ n, ∃ sn, stopCalls c (n + 1) s = .ok sn ∧
        sn.clients = s1.clients ∧ sn.stop = s1.stop ∧ sn.delivered = s1.delivered ∧
        sn.sendCalls = s1.sendCalls ∧
        sn.log = s1.log ++ List.replicate n (.recovered "close of closed channel") := by
  have hclosed : ∀ t : State, t.stop c = true →
      Client.Stop c t = .ok (t.println (.recovered "close of closed channel")) := by
    intro t ht
    simp [Client.Stop, closeStop, ht]
  have hrep : ∀ (n : Nat) (t : State), t.stop c = true →
      ∃ sn, stopCalls c n t = .ok sn ∧ sn.clients = t.clients ∧ sn.stop = t.stop ∧
        sn.delivered = t.delivered ∧ sn.sendCalls = t.sendCalls ∧
        sn.log = t.log ++ List.replicate n (.recovered "close of closed channel") := by
    intro n
    induction n with
    | zero => intro t _; exact ⟨t, rfl, rfl, rfl, rfl, rfl, by simp⟩
    | succ n ih =>
      intro t ht
      obtain ⟨sn, hsn, h1, h2, h3, h4, h5⟩ :=
        ih (t.println (.recovered "close of closed channel")) ht
      refine ⟨sn, ?_, h1, h2, h3, h4, ?_⟩
      · simp only [stopCalls, hclosed t ht]; exact hsn
      · rw [h5]
        simp [State.println, List.replicate_succ]
  obtain ⟨s1, hs1, _, hst, _, _⟩ := stop_spec c s
  have hs1c : s1.stop c = true := by rw [hst]; simp
  refine ⟨s1, hs1, hs1c, ?_, ?_⟩
  · intro hopen
    have : Client.Stop c s = .ok { s with stop := Function.update s.stop c true } := by
      simp [Client.Stop, closeStop, hopen]
    rw [this] at hs1
    exact (Except.ok.inj hs1).symm
  · intro n
    obtain ⟨sn, hsn, h⟩ := hrep n s1 hs1c
    refine ⟨sn, ?_, h⟩
    simp only [stopCalls, hs1]; exact hsn

/-- C7 fails on the code in its last part.  Client 0 joins and is evicted after a failed
Send, which calls `Stop` on it; a second `Stop` returns normally and leaves the stop
channel closed.  The Writer takes the stop signal and returns.  The Reader does not: the
peer sends "b", the Reader reads it, forwards it and is back in its blocking read, with
no departure sent; the Room takes the forwarded message and processes it.  So after two
calls of `Stop` the client, one of whose two tasks is running, has made no transition
to Closed. -/
theorem stop_leaves_reader_running :
    (((Room.run [.join 0, .recvFromClient ⟨0, "a"⟩ (fun _ => false)] newRoom).final.bind
        (fun s => (Client.Stop 0 s).toOption)).map
      (fun s => (s.clients.keys, s.stop 0, s.log))) =
      some ([], true, [.joined 0, .err "Can't send to client",
                       .recvFromClient ⟨0, "a"⟩, .recovered "close of closed channel"]) ∧
    Client.sender 0 true [.stop] Wire.empty
      = .exited { written := [], toRecv := [], toClosed := [0],
                  log := [.clientClosed 0] } [] ∧
    Client.receiver 0 [.message "b"] 1 Wire.empty
      = .blocked { written := [], toRecv := [⟨0, "b"⟩], toClosed := [], log := [] } ∧
    (Room.run [.join 0, .recvFromClient ⟨0, "a"⟩ (fun _ => false), .closed 0,
        .recvFromClient ⟨0, "b"⟩ (fun _ => true)] newRoom).live = true ∧
    ((Room.run [.join 0, .recvFromClient ⟨0, "a"⟩ (fun _ => false), .closed 0,
        .recvFromClient ⟨0, "b"⟩ (fun _ => true)] newRoom).final.map (fun s => s.log)) =
      some [.joined 0, .err "Can't send to client", .recvFromClient ⟨0, "a"⟩,
            .recvFromClient ⟨0, "b"⟩] :=
  ⟨rfl, rfl, rfl, rfl, rfl⟩

/-- C9 fails on the code.  The Reader of client 0 gets a read error: it returns and sends
0 on the `closed` channel.  The Room, of which 0 is a member, processes that departure:
0 is removed from the map, but its stop channel is still open, so its Writer has no stop
signal to take.  On the eviction path, a failed Send to 0, the same client ends with its
stop channel closed. -/
theorem read_error_leaves_stop_open :
    Client.receiver 0 [.failure "EOF"] 1 Wire.empty
      = .exited { written := [], toRecv := [], toClosed := [0],
                  log := [.receiver "EOF", .clientClosed 0] } [] ∧
    ((Room.run [.join 0, .closed 0] newRoom).final.map
      (fun s => (s.clients.keys, s.stop 0))) = some ([], false) ∧
    ((Room.run [.join 0, .recvFromClient ⟨0, "m"⟩ (fun _ => false)] newRoom).final.map
      (fun s => (s.clients.keys, s.stop 0))) = some ([], true) := by
  decide

/-- C10 as stated fails: client 0 joins and the Room processes a Stop, which closes the
stop channel of 0 and makes `run` return.  The Writer of 0 takes the stop signal and
leaves its loop, but nobody receives its send on `closed`: the Writer does not return,
and no departure reaches the Room. -/
theorem sender_exit_counterexample :
    (Room.run [.join 0, .stop] newRoom).live = false ∧
    ((Room.run [.join 0, .stop] newRoom).final.map (fun s => s.stop 0)) = some true ∧
    (Room.run [.join 0, .stop, .closed 0] newRoom).rest.length = 1 ∧
    Client.sender 0 (Room.run [.join 0, .stop] newRoom).live [.stop] Wire.empty
      = .parked { written := [], toRecv := [], toClosed := [],
                  log := [.clientClosed 0] } [] :=
  ⟨rfl, rfl, rfl, rfl⟩

/-- C10, amended.  At any point of its loop: when the Writer takes the stop signal it
leaves the loop at once, writes nothing, and leaves the messages still pending untaken;
when it takes a message it calls `WriteMessage` once, with this message as a text
frame, and it leaves the loop iff the write fails, else it goes on with the next event.
On leaving the loop it logs and sends its own client on the `closed` channel: when the
Room receives the value, the Writer returns; when the Room does not (its `run` has
returned), the Writer stays blocked in that send.  Over every run, a Writer that
returned delivered its client exactly once on `closed`, and a Writer still in its loop
or blocked in the send delivered nothing. -/
theorem sender_exit (c : Client) (roomTakes : Bool) (w : Wire) (rest : List SenderEvent) :
    (Client.sender c roomTakes (.stop :: rest) w =
      if roomTakes then
        .exited { w with log := w.log ++ [.clientClosed c],
                         toClosed := w.toClosed ++ [c] } rest
      else .parked { w with log := w.log ++ [.clientClosed c] } rest) ∧
    (∀ msg,
      Client.sender c roomTakes (.message msg none :: rest) w
        = Client.sender c roomTakes rest { w with written := w.written ++ [(1, msg)] } ∧
      Client.sender c roomTakes [.message msg none] w
        = .blocked { w with written := w.written ++ [(1, msg)] }) ∧
    (∀ msg e, Client.sender c roomTakes (.message msg (some e) :: rest) w =
      if roomTakes then
        .exited { w with written := w.written ++ [(1, msg)],
                         log := w.log ++ [.sender e, .clientClosed c],
                         toClosed := w.toClosed ++ [c] } rest
      else .parked { w with written := w.written ++ [(1, msg)],
                            log := w.log ++ [.sender e, .clientClosed c] } rest) ∧
    (∀ evs : List SenderEvent,
      match Client.sender c roomTakes evs w with
      | .exited w' _ => roomTakes = true ∧ w'.toClosed = w.toClosed ++ [c]
      | .parked w' _ => roomTakes = false ∧ w'.toClosed = w.toClosed
      | .blocked w' => w'.toClosed = w.toClosed) := by
  refine ⟨?_, fun msg => ⟨rfl, rfl⟩, ?_, ?_⟩
  · cases roomTakes <;> simp [Client.sender, Client.deferred]
  · intro msg e
    cases roomTakes <;> simp [Client.sender, Client.deferred]
  · intro evs
    induction evs generalizing w with
    | nil => simp [Client.sender]
    | cons ev evs ih =>
      cases ev with
      | stop => cases roomTakes <;> simp [Client.sender, Client.deferred]
      | message msg r =>
        cases r with
        | none =>
          have := ih { w with written := w.written ++ [(1, msg)] }
          simpa [Client.sender] using this
        | some e => cases roomTakes <;> simp [Client.sender, Client.deferred]

/-- Witness for C10: the Writer of client 4 writes "x", then fails to write "y", with a
Room that receives its departure; "z" is left untaken. -/
theorem sender_exit_witness :
    Client.sender 4 true [.message "x" none, .message "y" (some "broken pipe"),
        .message "z" none] Wire.empty
      = .exited { written := [(1, "x"), (1, "y")], toRecv := [], toClosed := [4],
                  log := [.sender "broken pipe", .clientClosed 4] } [.message "z" none] ∧
    Client.sender 4 true [.stop, .message "z" none] Wire.empty
      = (if true = true then
          .exited { Wire.empty with log := Wire.empty.log ++ [.clientClosed 4],
                                    toClosed := Wire.empty.toClosed ++ [4] }
            [.message "z" none]
        else .parked { Wire.empty with log := Wire.empty.log ++ [.clientClosed 4] }
            [.message "z" none]) :=
  ⟨rfl, (sender_exit 4 true Wire.empty [.message "z" none]).1⟩

end Chat
